import Mathlib

/-!
Verification of the burnafter secret-storage library against its
natural-language specification.

The development shallowly embeds the parts of the Go code that the claims
talk about:

* the client-side fallback file store (`Client.deriveKey`,
  `getFallbackFilePath`, `encryptSecret`, `decryptSecret`,
  `cleanupExpiredFallbackFiles`, and the fallback branches of
  `Client.Store` / `Client.Get`), and
* the daemon (`Server.Store`, `Server.Get`, and the expiration sweeper
  `cleanupExpiredSecrets`, modelled one tick at a time).

Byte strings are `List Nat`; the filesystem, the daemon's metadata table
and the storage backend are association lists keyed by byte strings.
Wall-clock instants and durations are integers (seconds); each operation
receives the current instant as an explicit argument, standing for the
`time.Now()` calls in the code.

External library primitives (crypto/sha256, PBKDF2, AES-GCM, the OS
random source) are not part of this repository.  They are modelled by
deterministic executable stand-ins that satisfy the contracts the code
relies on: digests are 32 bytes and deterministic, PBKDF2 output has the
requested length and depends on password, salt and the iteration count,
and AES-GCM seal/open round-trip with a 16-byte authentication tag that
fails verification on mismatch.  Random values (the GCM nonce, the
per-secret salt) enter the model as explicit arguments.
-/

set_option maxRecDepth 16384

namespace BurnAfter

/-- Byte strings: lists of byte values. -/
abbrev Bytes := List Nat

/-! ## Association-list maps

The Go code keeps the daemon state in `map[string]*secrets.Metadata`
plus a storage backend, and the fallback store works against the
filesystem.  All three are modelled as association lists. -/

/-- Lookup of a key in an association list (first match). -/
def mlookup {α : Type} : List (Bytes × α) → Bytes → Option α
  | [], _ => none
  | (k, v) :: rest, q => if k = q then some v else mlookup rest q

/-- Insert-or-replace, the semantics of the Go map assignment. -/
def minsert {α : Type} (m : List (Bytes × α)) (k : Bytes) (v : α) : List (Bytes × α) :=
  match m with
  | [] => [(k, v)]
  | (k₁, v₁) :: rest => if k₁ = k then (k, v) :: rest else (k₁, v₁) :: minsert rest k v

/-- Removal of a key, the semantics of the Go `delete` builtin. -/
def mremove {α : Type} (m : List (Bytes × α)) (k : Bytes) : List (Bytes × α) :=
  m.filter (fun kv => kv.1 ≠ k)

theorem mlookup_minsert_self {α : Type} (m : List (Bytes × α)) (k : Bytes) (v : α) :
    mlookup (minsert m k v) k = some v := by
  induction m with
  | nil => simp [minsert, mlookup]
  | cons hd tl ih =>
    obtain ⟨k₁, v₁⟩ := hd
    by_cases h : k₁ = k
    · simp [minsert, h, mlookup]
    · simp [minsert, h, mlookup, ih]

theorem mlookup_minsert_ne {α : Type} (m : List (Bytes × α)) (k q : Bytes) (v : α)
    (h : k ≠ q) : mlookup (minsert m k v) q = mlookup m q := by
  induction m with
  | nil => simp [minsert, mlookup, h]
  | cons hd tl ih =>
    obtain ⟨k₁, v₁⟩ := hd
    by_cases h₁ : k₁ = k
    · subst h₁
      simp [minsert, mlookup, h]
    · simp only [minsert, if_neg h₁, mlookup]
      by_cases h₂ : k₁ = q
      · simp [h₂]
      · simp [h₂, ih]

theorem length_minsert_present {α : Type} (m : List (Bytes × α)) (k : Bytes) (v : α)
    (h : (mlookup m k).isSome) : (minsert m k v).length = m.length := by
  induction m with
  | nil => simp [mlookup] at h
  | cons hd tl ih =>
    obtain ⟨k₁, v₁⟩ := hd
    by_cases h₁ : k₁ = k
    · simp [minsert, h₁]
    · simp only [mlookup, if_neg h₁] at h
      simp [minsert, h₁, ih h]

theorem mremove_cons {α : Type} (k₁ : Bytes) (v₁ : α) (tl : List (Bytes × α)) (k : Bytes) :
    mremove ((k₁, v₁) :: tl) k =
      if k₁ = k then mremove tl k else (k₁, v₁) :: mremove tl k := by
  by_cases h : k₁ = k
  · simp [mremove, List.filter_cons, h]
  · simp [mremove, List.filter_cons, h]

theorem mlookup_mremove_self {α : Type} (m : List (Bytes × α)) (k : Bytes) :
    mlookup (mremove m k) k = none := by
  induction m with
  | nil => simp [mremove, mlookup]
  | cons hd tl ih =>
    obtain ⟨k₁, v₁⟩ := hd
    rw [mremove_cons]
    by_cases h : k₁ = k
    · simpa [h] using ih
    · simpa [mlookup, h] using ih

theorem mlookup_mremove_ne {α : Type} (m : List (Bytes × α)) (k q : Bytes)
    (h : q ≠ k) : mlookup (mremove m k) q = mlookup m q := by
  induction m with
  | nil => simp [mremove, mlookup]
  | cons hd tl ih =>
    obtain ⟨k₁, v₁⟩ := hd
    rw [mremove_cons]
    by_cases h₁ : k₁ = k
    · subst h₁
      have hkq : ¬ k₁ = q := fun hh => h hh.symm
      simp only [if_pos rfl, mlookup, if_neg hkq]
      exact ih
    · by_cases h₂ : k₁ = q
      · subst h₂
        simp [h₁, mlookup]
      · simp only [if_neg h₁, mlookup, if_neg h₂]
        exact ih

/-- A lookup that misses also misses in any filtered sublist. -/
theorem mlookup_filter_of_none {α : Type} (p : Bytes × α → Bool)
    (m : List (Bytes × α)) (k : Bytes) (h : mlookup m k = none) :
    mlookup (m.filter p) k = none := by
  induction m with
  | nil => simp [mlookup]
  | cons hd tl ih =>
    obtain ⟨k₁, v₁⟩ := hd
    by_cases h₁ : k₁ = k
    · simp [mlookup, h₁] at h
    · simp only [mlookup, if_neg h₁] at h
      by_cases hp : p (k₁, v₁)
      · simp [List.filter, hp, mlookup, h₁, ih h]
      · simp [List.filter, hp, ih h]

/-- Keys of an association list. -/
def mkeys {α : Type} (m : List (Bytes × α)) : List Bytes := m.map Prod.fst

/-- Well-formedness of a map: no duplicate keys (true of every Go map). -/
def NodupKeys {α : Type} (m : List (Bytes × α)) : Prop := (mkeys m).Nodup

theorem mlookup_isSome_of_mem_keys {α : Type} (m : List (Bytes × α)) (k : Bytes)
    (h : (mlookup m k).isSome) : k ∈ mkeys m := by
  induction m with
  | nil => simp [mlookup] at h
  | cons hd tl ih =>
    obtain ⟨k₁, v₁⟩ := hd
    by_cases h₁ : k₁ = k
    · simp [mkeys, h₁]
    · simp only [mlookup, if_neg h₁] at h
      simp only [mkeys, List.map_cons, List.mem_cons]
      exact Or.inr (ih h)

theorem mem_keys_mlookup_isSome {α : Type} (m : List (Bytes × α)) (k : Bytes)
    (h : k ∈ mkeys m) : (mlookup m k).isSome := by
  induction m with
  | nil => simp [mkeys] at h
  | cons hd tl ih =>
    obtain ⟨k₁, v₁⟩ := hd
    by_cases h₁ : k₁ = k
    · simp [mlookup, h₁]
    · simp only [mkeys, List.map_cons, List.mem_cons] at h
      rcases h with h | h
      · exact absurd h.symm h₁
      · simpa [mlookup, h₁] using ih h

/-- On a map without duplicate keys, filtering commutes with lookup. -/
theorem mlookup_filter {α : Type} (p : Bytes × α → Bool) (m : List (Bytes × α))
    (hnd : NodupKeys m) (k : Bytes) :
    mlookup (m.filter p) k =
      (mlookup m k).bind (fun v => if p (k, v) then some v else none) := by
  induction m with
  | nil => simp [mlookup]
  | cons hd tl ih =>
    obtain ⟨k₁, v₁⟩ := hd
    have hnd' : NodupKeys tl := by
      simpa [NodupKeys, mkeys] using (List.nodup_cons.mp hnd).2
    by_cases h₁ : k₁ = k
    · subst h₁
      have hnotin : k₁ ∉ mkeys tl := by
        simpa [NodupKeys, mkeys] using (List.nodup_cons.mp hnd).1
      have htl : mlookup tl k₁ = none := by
        cases hh : mlookup tl k₁ with
        | none => rfl
        | some v =>
          exact absurd (mlookup_isSome_of_mem_keys tl k₁ (by simp [hh])) hnotin
      by_cases hp : p (k₁, v₁)
      · simp [List.filter, hp, mlookup]
      · simp [List.filter, hp, mlookup, mlookup_filter_of_none p tl k₁ htl]
    · by_cases hp : p (k₁, v₁)
      · simp [List.filter, hp, mlookup, h₁, ih hnd']
      · simp [List.filter, hp, mlookup, h₁, ih hnd']

/-! ## Filesystem model

`FS` is the set of regular files visible to the fallback store: an
association list from full path (a byte string) to file contents. -/

abbrev FS := List (Bytes × Bytes)

/-- Model of `os.ReadFile`: the contents at a path, if the file exists. -/
def fsRead (fs : FS) (p : Bytes) : Option Bytes := mlookup fs p

/-- Create-or-overwrite a file (the temp-file write plus atomic rename). -/
def fsWrite (fs : FS) (p v : Bytes) : FS := (p, v) :: mremove fs p

/-- Model of `os.Remove`: drop any file at the path. -/
def fsRemove (fs : FS) (p : Bytes) : FS := mremove fs p

/-! ## Models of the external crypto primitives

The repository calls crypto/sha256, golang.org/x/crypto's PBKDF2 and
crypto/cipher's AES-GCM.  These live outside the repository; the
definitions below are deterministic executable stand-ins exposing
exactly the contracts the code uses (output lengths, determinism,
GCM seal/open inversion and tag authentication). -/

/-- Model of crypto/sha256: a deterministic 32-byte digest. -/
def sha256 (bs : Bytes) : Bytes :=
  (List.range 32).map (fun i => bs.foldl (fun a b => (a * 31 + b + 1) % 256) ((i * 37 + 11) % 256))

theorem sha256_length (bs : Bytes) : (sha256 bs).length = 32 := by
  simp [sha256]

theorem sha256_all_bytes (bs : Bytes) : ∀ b ∈ sha256 bs, b < 256 := by
  intro b hb
  simp only [sha256, List.mem_map] at hb
  obtain ⟨i, _, hi⟩ := hb
  subst hi
  induction bs using List.reverseRecOn with
  | nil => simpa using Nat.mod_lt _ (by norm_num)
  | append_singleton xs x _ => simpa using Nat.mod_lt _ (by norm_num)

/-- Model of the PBKDF2 key-derivation primitive (HMAC-SHA256 based in the
code): deterministic bytes of the requested length, depending on the
password, the salt and the iteration count. -/
def pbkdf2Key (password salt : Bytes) (iter dkLen : Nat) : Bytes :=
  (List.range dkLen).map (fun i =>
    (password ++ salt).foldl (fun a b => (a * 131 + b + iter) % 256) ((i * 61 + 5) % 256))

theorem pbkdf2Key_length (password salt : Bytes) (iter dkLen : Nat) :
    (pbkdf2Key password salt iter dkLen).length = dkLen := by
  simp [pbkdf2Key]

/-- Model of the 16-byte AES-GCM authentication tag over key, nonce and
ciphertext. -/
def gcmTag (key nonce ct : Bytes) : Bytes :=
  (List.range 16).map (fun i =>
    (key ++ (nonce ++ ct)).foldl (fun a b => (a * 33 + b + 2) % 256) ((i * 29 + 3) % 256))

theorem gcmTag_length (key nonce ct : Bytes) : (gcmTag key nonce ct).length = 16 := by
  simp [gcmTag]

/-- Model of `gcm.Seal(nil, nonce, plaintext, nil)`: ciphertext of the
plaintext's length followed by the 16-byte tag. -/
def gcmSeal (key nonce pt : Bytes) : Bytes := pt ++ gcmTag key nonce pt

/-- Model of `gcm.Open(nil, nonce, blob, nil)`: split off the 16-byte tag,
verify it, and return the plaintext only on success. -/
def gcmOpen (key nonce blob : Bytes) : Option Bytes :=
  if blob.length < 16 then none
  else
    let ct := blob.take (blob.length - 16)
    let tag := blob.drop (blob.length - 16)
    if tag = gcmTag key nonce ct then some ct else none

theorem gcmSeal_length (key nonce pt : Bytes) :
    (gcmSeal key nonce pt).length = pt.length + 16 := by
  simp [gcmSeal, gcmTag_length]

/-- The GCM contract the code relies on: open inverts seal. -/
theorem gcmOpen_gcmSeal (key nonce pt : Bytes) :
    gcmOpen key nonce (gcmSeal key nonce pt) = some pt := by
  have hlen : (gcmSeal key nonce pt).length = pt.length + 16 := gcmSeal_length key nonce pt
  have hnot : ¬ (gcmSeal key nonce pt).length < 16 := by omega
  have hsub : (gcmSeal key nonce pt).length - 16 = pt.length := by omega
  have htake : (gcmSeal key nonce pt).take pt.length = pt :=
    List.take_left pt (gcmTag key nonce pt)
  have hdrop : (gcmSeal key nonce pt).drop pt.length = gcmTag key nonce pt :=
    List.drop_left pt (gcmTag key nonce pt)
  simp [gcmOpen, hnot, hsub, htake, hdrop]

/-! ## Hex encoding and big-endian integers -/

/-- The ASCII code of the lowercase hex digit of a value below 16
(as produced by hex.EncodeToString and the `%x` format verb). -/
def hexDigit (n : Nat) : Nat := if n < 10 then 48 + n else 87 + n

/-- Lowercase hex encoding of a byte string: two hex characters per byte. -/
def hexEncode : Bytes → Bytes
  | [] => []
  | b :: bs => hexDigit (b / 16) :: hexDigit (b % 16) :: hexEncode bs

theorem hexEncode_length (bs : Bytes) : (hexEncode bs).length = 2 * bs.length := by
  induction bs with
  | nil => simp [hexEncode]
  | cons b bs ih => simp [hexEncode, ih]; omega

theorem hexEncode_append (xs ys : Bytes) :
    hexEncode (xs ++ ys) = hexEncode xs ++ hexEncode ys := by
  induction xs with
  | nil => simp [hexEncode]
  | cons b bs ih => simp [hexEncode, ih]

/-- The first `2*k` characters of the hex encoding are the hex encoding of
the first `k` bytes. -/
theorem hexEncode_take (bs : Bytes) (k : Nat) :
    (hexEncode bs).take (2 * k) = hexEncode (bs.take k) := by
  induction bs generalizing k with
  | nil => simp [hexEncode]
  | cons b bs ih =>
    cases k with
    | zero => simp [hexEncode]
    | succ k =>
      have h2 : 2 * (k + 1) = (2 * k) + 1 + 1 := by omega
      simp [hexEncode, h2, List.take_succ_cons, ih]

/-- Every character produced by `hexEncode` on genuine bytes is an ASCII
hex digit (`0`-`9` or `a`-`f`). -/
theorem hexEncode_chars (bs : Bytes) (hbs : ∀ b ∈ bs, b < 256) :
    ∀ c ∈ hexEncode bs, (48 ≤ c ∧ c ≤ 57) ∨ (97 ≤ c ∧ c ≤ 102) := by
  induction bs with
  | nil => simp [hexEncode]
  | cons b bs ih =>
    intro c hc
    have hb : b < 256 := hbs b (by simp)
    simp only [hexEncode, List.mem_cons] at hc
    rcases hc with h | h | h
    · subst h
      by_cases hlt : b / 16 < 10
      · exact Or.inl (by simp [hexDigit, hlt]; omega)
      · exact Or.inr (by simp [hexDigit, hlt]; omega)
    · subst h
      have hm : b % 16 ≤ 15 := Nat.le_of_lt_succ (Nat.mod_lt _ (by norm_num))
      by_cases hlt : b % 16 < 10
      · exact Or.inl (by simp [hexDigit, hlt]; omega)
      · exact Or.inr (by simp [hexDigit, hlt]; omega)
    · exact ih (fun x hx => hbs x (by simp [hx])) c h

/-- Model of `binary.BigEndian.PutUint64`: big-endian bytes of a 64-bit value. -/
def putUint64BE (n : Nat) : Bytes :=
  [n / 2 ^ 56 % 256, n / 2 ^ 48 % 256, n / 2 ^ 40 % 256, n / 2 ^ 32 % 256,
   n / 2 ^ 24 % 256, n / 2 ^ 16 % 256, n / 2 ^ 8 % 256, n % 256]

/-- Model of `binary.BigEndian.Uint64` on an 8-byte slice. -/
def beUint64 (bs : Bytes) : Nat := bs.foldl (fun acc b => acc * 256 + b) 0

theorem putUint64BE_length (n : Nat) : (putUint64BE n).length = 8 := by
  simp [putUint64BE]

theorem beUint64_putUint64BE (n : Nat) (h : n < 2 ^ 64) :
    beUint64 (putUint64BE n) = n := by
  simp only [putUint64BE, beUint64, List.foldl]
  omega

/-! ## Constants (fallback.go and options) -/

/-- Constant `fallbackFileVersion = 1`. -/
def fallbackFileVersion : Nat := 1

/-- Constant `pbkdf2Iterations = 100000`. -/
def pbkdf2Iterations : Nat := 100000

/-- Constant `aesKeySize = 32` (AES-256). -/
def aesKeySize : Nat := 32

/-- Constant `gcmNonceSize = 12`. -/
def gcmNonceSize : Nat := 12

/-- The value `math.MaxInt64`. -/
def maxInt64Nat : Nat := 2 ^ 63 - 1

/-- The byte string `burnafter-` (the fallback file-name stem). -/
def burnafterDash : Bytes := [98, 117, 114, 110, 97, 102, 116, 101, 114, 45]

/-- The ASCII hyphen. -/
def hyphen : Nat := 45

/-- The path separator `/` used by `filepath.Join`. -/
def slash : Nat := 47

/-! ## Executable identity (internal/common/verify.go)

`HashFile` returns `hex.EncodeToString(sha256(file))`; the bytes of the
executable enter the model as an explicit argument. -/

/-- Embedding of `common.GetCurrentBinaryHash`: the lowercase hex encoding of the
SHA-256 digest of the running executable's bytes. -/
def getCurrentBinaryHash (exe : Bytes) : Bytes := hexEncode (sha256 exe)

/-! ## Client facade and fallback file store (client.go, store.go, get.go,
delete.go and the fallback code) -/

/-- The burnafter client: its options plus the launcher-failure flag.
`defaultTTL` is in seconds (the Go `time.Duration` scaled to seconds). -/
structure Client where
  nonce : Bytes
  noServer : Bool
  serverStartFailed : Bool
  defaultTTL : Int
  maxSecretSize : Int

/-- Embedding of `Client.useFallback`: true iff `NoServer` is set or server start
failed earlier in this client instance. -/
def Client.useFallback (c : Client) : Bool := c.noServer || c.serverStartFailed

/-- Per-call store options (`options.Store`). -/
structure StoreOpts where
  ttlSeconds : Int
  absoluteExpirationSeconds : Int

/-- The password input of the fallback key derivation:
`[]byte(c.options.Nonce + binaryHash + secretName)`. -/
def deriveKeyPassword (c : Client) (binaryHash name : Bytes) : Bytes :=
  c.nonce ++ (binaryHash ++ name)

/-- Embedding of `Client.deriveKey` (fallback mode): PBKDF2 over the nonce, the hex
binary hash and the secret name, salted with `sha256(secretName)`,
100000 iterations, 32-byte output. -/
def Client.deriveKey (c : Client) (exe name : Bytes) : Bytes :=
  pbkdf2Key (deriveKeyPassword c (getCurrentBinaryHash exe) name)
    (sha256 name) pbkdf2Iterations aesKeySize

/-- Embedding of `Client.getFallbackFilePath`: `filepath.Join(tmpDir,
fmt.Sprintf("burnafter-%s-%x", binaryHash[:16], secretHash[:16]))`.
`binaryHash` is the 64-character hex string, so `binaryHash[:16]` is its
first 16 characters; `secretHash[:16]` is the first 16 raw digest bytes,
which `%x` prints as 32 hex characters. -/
def getFallbackFilePath (tmpDir exe name : Bytes) : Bytes :=
  tmpDir ++ (slash ::
    (burnafterDash ++ ((getCurrentBinaryHash exe).take 16 ++
      (hyphen :: hexEncode ((sha256 name).take 16)))))

/-- The byte layout written by `encryptSecret`:
`[version:1][nonce:12][expiry:8 big-endian][ciphertext+tag]`. -/
def serializeFallback (nonce : Bytes) (expiry : Int) (ct : Bytes) : Bytes :=
  fallbackFileVersion :: (nonce ++ (putUint64BE expiry.toNat ++ ct))

/-- Failure modes of the fallback store, one per distinct error return
in the Go code. -/
inductive FBError
  | serverMode
  | notFound
  | tooSmall
  | unsupportedVersion (v : Nat)
  | invalidExpiry
  | expired
  | cryptoError
  | negativeExpiry
deriving DecidableEq, Repr

/-- Embedding of `Client.encryptSecret`: derive the key, seal the secret with a fresh
nonce, reject negative expiry values, and atomically write the serialized
file at the deterministic fallback path. -/
def encryptSecret (c : Client) (exe tmpDir : Bytes) (fs : FS)
    (name secret : Bytes) (expiry : Int) (nonce : Bytes) : Except FBError FS :=
  let key := Client.deriveKey c exe name
  let ct := gcmSeal key nonce secret
  let path := getFallbackFilePath tmpDir exe name
  if expiry < 0 then Except.error FBError.negativeExpiry
  else Except.ok (fsWrite fs path (serializeFallback nonce expiry ct))

/-- Embedding of `Client.decryptSecret`: read the file at the fallback path, check
size, version and expiry bounds, delete-and-fail when past expiry, and
otherwise authenticate and decrypt.  Returns the result together with
the possibly changed filesystem. -/
def decryptSecret (c : Client) (exe tmpDir : Bytes) (fs : FS)
    (name : Bytes) (now : Int) : Except FBError Bytes × FS :=
  let path := getFallbackFilePath tmpDir exe name
  match fsRead fs path with
  | none => (Except.error FBError.notFound, fs)
  | some data =>
    if data.length < 1 + gcmNonceSize + 8 then (Except.error FBError.tooSmall, fs)
    else if data.headI ≠ fallbackFileVersion then
      (Except.error (FBError.unsupportedVersion data.headI), fs)
    else
      let nonce := (data.drop 1).take gcmNonceSize
      let expiryU := beUint64 ((data.drop (1 + gcmNonceSize)).take 8)
      if expiryU > maxInt64Nat then (Except.error FBError.invalidExpiry, fs)
      else if now > (expiryU : Int) then (Except.error FBError.expired, fsRemove fs path)
      else
        let ct := data.drop (1 + gcmNonceSize + 8)
        match gcmOpen (Client.deriveKey c exe name) nonce ct with
        | none => (Except.error FBError.cryptoError, fs)
        | some pt => (Except.ok pt, fs)

/-- Does `p` start with `pfx`? (Go's string prefix comparison.) -/
def bytesHasPfx : Bytes → Bytes → Bool
  | [], _ => true
  | _ :: _, [] => false
  | x :: xs, y :: ys => decide (x = y) && bytesHasPfx xs ys

/-- The full-path stem shared by this executable's fallback files:
`<tmpDir>/burnafter-<binaryHash[:16]>-`. -/
def fallbackFilePfx (tmpDir exe : Bytes) : Bytes :=
  tmpDir ++ (slash :: (burnafterDash ++ ((getCurrentBinaryHash exe).take 16 ++ [hyphen])))

/-- The per-file test of `cleanupExpiredFallbackFiles`: our name stem,
parseable header, expiry within int64 range, and already past now. -/
def cleanupShouldDelete (pfx : Bytes) (now : Int) (p data : Bytes) : Bool :=
  bytesHasPfx pfx p &&
  (decide (1 + gcmNonceSize + 8 ≤ data.length) &&
    (decide (beUint64 ((data.drop (1 + gcmNonceSize)).take 8) ≤ maxInt64Nat) &&
      decide ((beUint64 ((data.drop (1 + gcmNonceSize)).take 8) : Int) < now)))

/-- Embedding of `Client.cleanupExpiredFallbackFiles`: walk the temp directory and
remove every file of this executable whose stored expiry lies in the
past. -/
def cleanupExpiredFallbackFiles (exe tmpDir : Bytes) (fs : FS) (now : Int) : FS :=
  let pfx := fallbackFilePfx tmpDir exe
  fs.filter (fun kv => !(cleanupShouldDelete pfx now kv.1 kv.2))

/-- The fallback expiry instant computed by `Client.Store`: an absolute
expiration request is used as a Unix timestamp directly, a TTL request is
added to now, otherwise the client default TTL is added to now. -/
def storeFallbackExpiry (c : Client) (now : Int) (opts : StoreOpts) : Int :=
  if opts.absoluteExpirationSeconds > 0 then opts.absoluteExpirationSeconds
  else if opts.ttlSeconds > 0 then now + opts.ttlSeconds
  else now + c.defaultTTL

/-- The fallback branch of `Client.Store`: encrypt to the fallback file,
then sweep expired fallback files.  The daemon branch is modelled
separately by `Server.Store`; calling this in server mode is marked by a
distinguished error. -/
def Client.StoreFB (c : Client) (exe tmpDir : Bytes) (fs : FS)
    (name secret : Bytes) (opts : StoreOpts) (now : Int) (nonce : Bytes) :
    Except FBError FS :=
  if c.useFallback then
    match encryptSecret c exe tmpDir fs name secret (storeFallbackExpiry c now opts) nonce with
    | Except.error e => Except.error e
    | Except.ok fs₁ => Except.ok (cleanupExpiredFallbackFiles exe tmpDir fs₁ now)
  else Except.error FBError.serverMode

/-- The fallback branch of `Client.Get`: decrypt from the fallback file,
then sweep expired fallback files (the sweep does not change the returned
value). -/
def Client.GetFB (c : Client) (exe tmpDir : Bytes) (fs : FS)
    (name : Bytes) (now : Int) : Except FBError Bytes × FS :=
  if c.useFallback then
    match decryptSecret c exe tmpDir fs name now with
    | (Except.ok pt, fs₁) => (Except.ok pt, cleanupExpiredFallbackFiles exe tmpDir fs₁ now)
    | (Except.error e, fs₁) => (Except.error e, fs₁)
  else (Except.error FBError.serverMode, fs)

/-! ## Daemon (internal/server)

The daemon's crypto helpers `common.DeriveKey`, `common.Encrypt` and
`common.Decrypt` are declared and called by the server code but their
bodies are not among the sources; they are modelled from the spec.
`GetPeerAuthInfo`/`GetClientBinaryInfo` (peer PID to executable hash)
and the random salt and GCM nonce enter as explicit arguments of the
handlers, standing for the per-request oracle results. -/

/-- Modelled from the spec: `common.DeriveKey(clientHash, clientNonce,
sessionID, name, salt)`, whose body is not among the sources — PBKDF2
with HMAC-SHA256, 100000 iterations, 32-byte output, password
`CN || CED || SID || name`, over the provided 16-byte salt. -/
def deriveKeyServer (clientHash clientNonce sessionID name salt : Bytes) : Bytes :=
  pbkdf2Key (clientNonce ++ (clientHash ++ (sessionID ++ name))) salt
    pbkdf2Iterations aesKeySize

/-- Modelled from the spec: `common.Encrypt(secret, key)`, whose body is
not among the sources — AES-256-GCM with a fresh 12-byte nonce, output
`nonce(12) || ciphertext || tag(16)`. -/
def encryptServer (secret key nonce : Bytes) : Bytes :=
  nonce ++ gcmSeal key nonce secret

/-- Modelled from the spec: `common.Decrypt(blob, key)`, whose body is
not among the sources — parse the 12-byte nonce prefix and open,
failing on authentication mismatch. -/
def decryptServer (blob key : Bytes) : Option Bytes :=
  if blob.length < 12 then none
  else gcmOpen key (blob.take 12) (blob.drop 12)

/-- Embedding of `secrets.Payload`: the record held by the storage backend. -/
structure Payload where
  encryptedData : Bytes
  salt : Bytes
  clientBinaryHash : Bytes
deriving DecidableEq, Repr

/-- Embedding of `secrets.Metadata`: the in-memory lifecycle record (times in
seconds). -/
structure Metadata where
  name : Bytes
  inactivityTTL : Int
  absoluteExpiresAt : Option Int
  lastAccessed : Int
deriving DecidableEq, Repr

/-- The daemon state the handlers touch: the metadata table, the storage
backend (modelled as the in-memory backend's map), the session ID, the
limits, and the graceful-shutdown flag. -/
structure ServerState where
  secrets : List (Bytes × Metadata)
  storage : List (Bytes × Payload)
  sessionID : Bytes
  maxSecrets : Nat
  maxSecretSize : Int
  defaultTTL : Int
  grpcRunning : Bool
  shutdown : Bool

/-- Results of the Store RPC, one per distinct response. -/
inductive StoreResult
  | sizeExceeded
  | limitExceeded
  | success
deriving DecidableEq, Repr

/-- Embedding of `Server.Store`: check the size limit, check the secret-count limit
for new names only, derive the key from `(CED, nonce, SID, name, salt)`,
encrypt, write the payload to the backend and then install the metadata
entry with `lastAccessed = now`.  `clientHash` is the peer executable's
hex digest, `salt` and `nonce` the freshly generated random values. -/
def Server.Store (st : ServerState) (name secret : Bytes)
    (ttlSeconds absSeconds : Int) (clientNonce clientHash salt nonce : Bytes)
    (now : Int) : StoreResult × ServerState :=
  if (secret.length : Int) > st.maxSecretSize then (StoreResult.sizeExceeded, st)
  else if !(mlookup st.secrets name).isSome && decide (st.secrets.length ≥ st.maxSecrets) then
    (StoreResult.limitExceeded, st)
  else
    let key := deriveKeyServer clientHash clientNonce st.sessionID name salt
    let encrypted := encryptServer secret key nonce
    let ttl := if ttlSeconds = 0 then st.defaultTTL else ttlSeconds
    let absAt := if absSeconds > 0 then some (now + absSeconds) else none
    let payload : Payload := ⟨encrypted, salt, clientHash⟩
    let md : Metadata := ⟨name, ttl, absAt, now⟩
    (StoreResult.success,
      { st with storage := minsert st.storage name payload,
                secrets := minsert st.secrets name md })

/-- Results of the Get RPC, one per distinct response. -/
inductive GetResult
  | notFound
  | expiredInactivity
  | expiredAbsolute
  | storageError
  | unauthorized
  | cryptoError
  | success (secret : Bytes)
deriving DecidableEq, Repr

/-- Embedding of `Server.Get`: look up the metadata; evict and fail on either expiry;
otherwise refresh `lastAccessed` first, then fetch the payload, compare
the stored executable digest against the caller's, re-derive the key
with the stored salt, and decrypt. -/
def Server.Get (st : ServerState) (name clientNonce clientHash : Bytes)
    (now : Int) : GetResult × ServerState :=
  match mlookup st.secrets name with
  | none => (GetResult.notFound, st)
  | some md =>
    if now - md.lastAccessed > md.inactivityTTL then
      (GetResult.expiredInactivity,
        { st with secrets := mremove st.secrets name,
                  storage := mremove st.storage name })
    else if md.absoluteExpiresAt.elim false (fun d => decide (now > d)) then
      (GetResult.expiredAbsolute,
        { st with secrets := mremove st.secrets name,
                  storage := mremove st.storage name })
    else
      let md' := { md with lastAccessed := now }
      let st₁ := { st with secrets := minsert st.secrets name md' }
      match mlookup st.storage name with
      | none => (GetResult.storageError, st₁)
      | some p =>
        if p.clientBinaryHash ≠ clientHash then (GetResult.unauthorized, st₁)
        else
          let key := deriveKeyServer clientHash clientNonce st.sessionID name p.salt
          match decryptServer p.encryptedData key with
          | none => (GetResult.cryptoError, st₁)
          | some pt => (GetResult.success pt, st₁)

/-- The expiration test of the sweeper: inactivity window exceeded, or
the optional absolute deadline lies strictly in the past. -/
def expiredPred (md : Metadata) (now : Int) : Bool :=
  decide (now - md.lastAccessed > md.inactivityTTL) ||
  md.absoluteExpiresAt.elim false (fun d => decide (now > d))

/-- One tick of `cleanupExpiredSecrets`: under the metadata lock, drop
every expired entry and delete its backend payload (backend errors
ignored); if the table is empty afterwards and the gRPC server is up,
initiate graceful shutdown. -/
def Server.sweepOnce (st : ServerState) (now : Int) : ServerState :=
  let removed := st.secrets.filter (fun kv => expiredPred kv.2 now)
  let secrets' := st.secrets.filter (fun kv => !(expiredPred kv.2 now))
  let storage' := st.storage.filter (fun kv => !(decide (kv.1 ∈ mkeys removed)))
  let down := secrets'.isEmpty && st.grpcRunning
  { st with secrets := secrets', storage := storage',
            shutdown := st.shutdown || down }

/-! ## Helper lemmas about the serialized fallback file -/

theorem serializeFallback_length (nonce : Bytes) (e : Int) (ct : Bytes)
    (hn : nonce.length = 12) :
    (serializeFallback nonce e ct).length = 21 + ct.length := by
  simp [serializeFallback, hn, putUint64BE_length]
  omega

theorem serializeFallback_headI (nonce : Bytes) (e : Int) (ct : Bytes) :
    (serializeFallback nonce e ct).headI = fallbackFileVersion := rfl

theorem serializeFallback_nonce (nonce : Bytes) (e : Int) (ct : Bytes)
    (hn : nonce.length = 12) :
    ((serializeFallback nonce e ct).drop 1).take 12 = nonce := by
  simp only [serializeFallback, List.drop_succ_cons, List.drop_zero]
  rw [List.take_left' hn]

theorem serializeFallback_expiry (nonce : Bytes) (e : Int) (ct : Bytes)
    (hn : nonce.length = 12) :
    ((serializeFallback nonce e ct).drop 13).take 8 = putUint64BE e.toNat := by
  have h13 : (serializeFallback nonce e ct).drop 13
      = putUint64BE e.toNat ++ ct := by
    simp only [serializeFallback, List.drop_succ_cons, List.drop_zero,
      show (12 : Nat) + 1 = 13 from rfl]
    rw [show (12 : Nat) = nonce.length from hn.symm, List.drop_left]
  rw [h13, List.take_left' (putUint64BE_length e.toNat)]

theorem serializeFallback_ct (nonce : Bytes) (e : Int) (ct : Bytes)
    (hn : nonce.length = 12) :
    (serializeFallback nonce e ct).drop 21 = ct := by
  have : (serializeFallback nonce e ct).drop 21
      = ((nonce ++ (putUint64BE e.toNat ++ ct)).drop 12).drop 8 := by
    simp only [serializeFallback, List.drop_succ_cons, List.drop_drop]
  rw [this, show (12 : Nat) = nonce.length from hn.symm, List.drop_left,
    show (8 : Nat) = (putUint64BE e.toNat).length from (putUint64BE_length e.toNat).symm,
    List.drop_left]

/-- Reading back a well-formed, unexpired fallback file yields the sealed
secret. -/
theorem decryptSecret_serialized (c : Client) (exe tmpDir : Bytes) (fs : FS)
    (name secret nonce : Bytes) (e now : Int)
    (hn : nonce.length = 12) (h0 : 0 ≤ e) (hmax : e ≤ (maxInt64Nat : Int))
    (hfr : ¬ now > e)
    (hread : fsRead fs (getFallbackFilePath tmpDir exe name)
      = some (serializeFallback nonce e
          (gcmSeal (Client.deriveKey c exe name) nonce secret))) :
    decryptSecret c exe tmpDir fs name now = (Except.ok secret, fs) := by
  have htoNat : ((e.toNat : Int)) = e := Int.toNat_of_nonneg h0
  have hbe : beUint64 (putUint64BE e.toNat) = e.toNat := by
    apply beUint64_putUint64BE
    have h1 : e.toNat ≤ maxInt64Nat := by omega
    have h2 : maxInt64Nat < 2 ^ 64 := by norm_num [maxInt64Nat]
    omega
  set ct := gcmSeal (Client.deriveKey c exe name) nonce secret with hct
  have hlen : ¬ (serializeFallback nonce e ct).length < 1 + gcmNonceSize + 8 := by
    rw [serializeFallback_length nonce e ct hn]
    simp [gcmNonceSize]
  have hv : ¬ (serializeFallback nonce e ct).headI ≠ fallbackFileVersion := by
    simp [serializeFallback_headI]
  have hslice : ((serializeFallback nonce e ct).drop (1 + gcmNonceSize)).take 8
      = putUint64BE e.toNat := by
    simpa [gcmNonceSize] using serializeFallback_expiry nonce e ct hn
  have hnslice : ((serializeFallback nonce e ct).drop 1).take gcmNonceSize = nonce := by
    simpa [gcmNonceSize] using serializeFallback_nonce nonce e ct hn
  have hctslice : (serializeFallback nonce e ct).drop (1 + gcmNonceSize + 8) = ct := by
    simpa [gcmNonceSize] using serializeFallback_ct nonce e ct hn
  have hemax : ¬ beUint64 (putUint64BE e.toNat) > maxInt64Nat := by
    rw [hbe]; omega
  have hfr' : ¬ now > ((beUint64 (putUint64BE e.toNat) : Nat) : Int) := by
    rw [hbe, htoNat]; exact hfr
  simp only [decryptSecret, hread, if_neg hlen, ne_eq, hv,
    if_neg (show ¬ (serializeFallback nonce e ct).headI ≠ fallbackFileVersion from hv),
    hnslice, hslice, hctslice, hct, gcmOpen_gcmSeal]
  rw [if_neg (by simp [serializeFallback_headI]), if_neg (by rw [hbe]; omega),
    if_neg (by rw [hbe, htoNat]; omega)]

/-! ## Spec-side reference definitions (used to compare against the code) -/

/-- The fallback key-derivation password exactly as the spec words it:
the byte concatenation `CN || CED || name` with `CED` the raw 32-byte
SHA-256 digest of the client executable. -/
def deriveKeyPasswordSpec (cn exe name : Bytes) : Bytes :=
  cn ++ (sha256 exe ++ name)

/-- The fallback file path exactly as the spec words it:
`<tmpDir>/burnafter-<CED16>-<SHA256(name)16>` where each component is the
FIRST SIXTEEN HEX CHARACTERS of the respective 32-byte digest. -/
def getFallbackFilePathSpec (tmpDir exe name : Bytes) : Bytes :=
  tmpDir ++ (slash ::
    (burnafterDash ++ ((hexEncode (sha256 exe)).take 16 ++
      (hyphen :: (hexEncode (sha256 name)).take 16))))

/-! ## Concrete sample values used to instantiate theorems -/

/-- A concrete fallback-mode client. -/
def cDemo : Client :=
  { nonce := [110, 49], noServer := true, serverStartFailed := false,
    defaultTTL := 14400, maxSecretSize := 1048576 }

/-- A concrete daemon state with an empty table. -/
def stDemo : ServerState :=
  { secrets := [], storage := [], sessionID := [115, 105, 100],
    maxSecrets := 100, maxSecretSize := 1048576, defaultTTL := 14400,
    grpcRunning := true, shutdown := false }

/-! ## Further helper lemmas -/

/-- The daemon decrypt inverts the daemon encrypt (12-byte nonce). -/
theorem decryptServer_encryptServer (secret key nonce : Bytes)
    (hn : nonce.length = 12) :
    decryptServer (encryptServer secret key nonce) key = some secret := by
  have hlen : ¬ (encryptServer secret key nonce).length < 12 := by
    simp only [encryptServer, List.length_append, hn]
    omega
  have htake : (encryptServer secret key nonce).take 12 = nonce := by
    simpa [encryptServer] using
      @List.take_left' Nat nonce (gcmSeal key nonce secret) 12 hn
  have hdrop : (encryptServer secret key nonce).drop 12 = gcmSeal key nonce secret := by
    simpa [encryptServer] using
      @List.drop_left' Nat nonce (gcmSeal key nonce secret) 12 hn
  simp only [decryptServer, if_neg hlen, htake, hdrop, gcmOpen_gcmSeal]

/-- Filtering by a key-only predicate commutes with lookup. -/
theorem mlookup_filter_key {α : Type} (p : Bytes → Bool) (m : List (Bytes × α)) (k : Bytes) :
    mlookup (m.filter (fun kv => p kv.1)) k = if p k then mlookup m k else none := by
  induction m with
  | nil => simp [mlookup]
  | cons hd tl ih =>
    obtain ⟨k₁, v₁⟩ := hd
    rw [List.filter_cons]
    by_cases h₁ : k₁ = k
    · subst h₁
      by_cases hp : p k₁
      · simp [hp, mlookup]
      · simp [hp, mlookup, ih]
    · by_cases hp : p k₁
      · simp [hp, mlookup, h₁, ih]
      · simp [hp, mlookup, h₁, ih]

/-- The state left behind by a Get that passes both expiry checks: only
`lastAccessed` of the requested entry changes, whatever the outcome. -/
theorem serverGet_state_not_expired (st : ServerState)
    (name clientNonce clientHash : Bytes) (now : Int) (md : Metadata)
    (hmd : mlookup st.secrets name = some md)
    (hfresh : ¬ now - md.lastAccessed > md.inactivityTTL)
    (habs : md.absoluteExpiresAt.elim false (fun d => decide (now > d)) = false) :
    (Server.Get st name clientNonce clientHash now).2
      = { st with secrets := minsert st.secrets name { md with lastAccessed := now } } := by
  simp only [Server.Get, hmd, if_neg hfresh, habs, Bool.false_eq_true, if_false]
  cases hp : mlookup st.storage name with
  | none => rfl
  | some p =>
    dsimp only
    by_cases hh : p.clientBinaryHash ≠ clientHash
    · rw [if_pos hh]
    · rw [if_neg hh]
      cases hdec : decryptServer p.encryptedData
          (deriveKeyServer clientHash clientNonce st.sessionID name p.salt) with
      | none => rfl
      | some pt => rfl

/-- The pairing invariant of the daemon: the metadata table and the
storage backend hold exactly the same names. -/
def sameKeys (st : ServerState) : Prop :=
  ∀ k, (mlookup st.secrets k).isSome ↔ (mlookup st.storage k).isSome

/-! ## C2 — daemon-mode expiration law -/

/-- C2: for a secret stored with inactivity TTL `t` (and payload that the
caller is entitled to: matching digest and an authentic ciphertext), a
daemon Get returns the stored plaintext iff the elapsed interval since
`last_accessed` is at most `t` — the code expires only on strict
excess — and the absolute deadline, when set, has not been passed;
otherwise the entry is evicted from both tables and an expiration error
is returned. -/
theorem c2_daemon_expiration_law (st : ServerState)
    (name clientNonce clientHash pt nonce : Bytes) (now : Int)
    (md : Metadata) (p : Payload)
    (hmd : mlookup st.secrets name = some md)
    (hp : mlookup st.storage name = some p)
    (hhash : p.clientBinaryHash = clientHash)
    (hn : nonce.length = 12)
    (henc : p.encryptedData = encryptServer pt
      (deriveKeyServer clientHash clientNonce st.sessionID name p.salt) nonce) :
    ((Server.Get st name clientNonce clientHash now).1 = GetResult.success pt ↔
      (now - md.lastAccessed ≤ md.inactivityTTL ∧
        ∀ d, md.absoluteExpiresAt = some d → now ≤ d)) ∧
    (¬ (now - md.lastAccessed ≤ md.inactivityTTL ∧
        ∀ d, md.absoluteExpiresAt = some d → now ≤ d) →
      ((Server.Get st name clientNonce clientHash now).1 = GetResult.expiredInactivity ∨
        (Server.Get st name clientNonce clientHash now).1 = GetResult.expiredAbsolute) ∧
      mlookup (Server.Get st name clientNonce clientHash now).2.secrets name = none ∧
      mlookup (Server.Get st name clientNonce clientHash now).2.storage name = none) := by
  by_cases hfr : now - md.lastAccessed > md.inactivityTTL
  · have hres : Server.Get st name clientNonce clientHash now
        = (GetResult.expiredInactivity,
           { st with secrets := mremove st.secrets name,
                     storage := mremove st.storage name }) := by
      simp only [Server.Get, hmd, if_pos hfr]
    constructor
    · rw [hres]
      constructor
      · intro hc
        exact absurd hc (by simp)
      · intro hc
        exact absurd hc.1 (by omega)
    · intro _
      rw [hres]
      exact ⟨Or.inl rfl, mlookup_mremove_self _ _, mlookup_mremove_self _ _⟩
  · by_cases hax : md.absoluteExpiresAt.elim false (fun d => decide (now > d)) = true
    · obtain ⟨d, hd, hnd⟩ : ∃ d, md.absoluteExpiresAt = some d ∧ now > d := by
        cases hopt : md.absoluteExpiresAt with
        | none => rw [hopt] at hax; simp at hax
        | some d =>
          rw [hopt] at hax
          simp only [Option.elim_some, decide_eq_true_eq] at hax
          exact ⟨d, rfl, hax⟩
      have hres : Server.Get st name clientNonce clientHash now
          = (GetResult.expiredAbsolute,
             { st with secrets := mremove st.secrets name,
                       storage := mremove st.storage name }) := by
        simp only [Server.Get, hmd, if_neg hfr, hax, if_true]
      constructor
      · rw [hres]
        constructor
        · intro hc
          exact absurd hc (by simp)
        · intro hc
          have := hc.2 d hd
          omega
      · intro _
        rw [hres]
        exact ⟨Or.inr rfl, mlookup_mremove_self _ _, mlookup_mremove_self _ _⟩
    · have hax' : md.absoluteExpiresAt.elim false (fun d => decide (now > d)) = false := by
        simpa using hax
      have hdeadline : ∀ d, md.absoluteExpiresAt = some d → now ≤ d := by
        intro d hd
        rw [hd] at hax'
        simp only [Option.elim_some, decide_eq_false_iff_not] at hax'
        omega
      have hres : (Server.Get st name clientNonce clientHash now).1
          = GetResult.success pt := by
        simp only [Server.Get, hmd, if_neg hfr, hax', Bool.false_eq_true, if_false, hp]
        rw [if_neg (by simp [hhash])]
        rw [henc, decryptServer_encryptServer pt _ nonce hn]
      constructor
      · rw [hres]
        constructor
        · intro _
          exact ⟨by omega, hdeadline⟩
        · intro _
          rfl
      · intro hc
        exact absurd ⟨by omega, hdeadline⟩ hc

/-! ## C7 — metadata/payload pairing invariant -/

/-- C7: after a completed daemon Store, Get or sweeper pass, the
metadata table holds a name iff the storage backend holds a payload for
it — the pair is created together by Store and deleted together by every
eviction. -/
theorem c7_metadata_payload_pairing (st : ServerState)
    (name secret clientNonce clientHash salt nonce : Bytes)
    (ttlSeconds absSeconds now : Int)
    (h : sameKeys st) (hnd : NodupKeys st.secrets) :
    sameKeys (Server.Store st name secret ttlSeconds absSeconds clientNonce clientHash salt nonce now).2 ∧
    sameKeys (Server.Get st name clientNonce clientHash now).2 ∧
    sameKeys (Server.sweepOnce st now) := by
  refine ⟨?_, ?_, ?_⟩
  · by_cases h1 : (secret.length : Int) > st.maxSecretSize
    · simp only [Server.Store, if_pos h1]
      exact h
    · by_cases h2 : (!(mlookup st.secrets name).isSome
          && decide (st.secrets.length ≥ st.maxSecrets)) = true
      · simp only [Server.Store, if_neg h1, if_pos h2]
        exact h
      · simp only [Server.Store, if_neg h1, if_neg h2]
        intro k
        by_cases hk : name = k
        · subst hk
          simp [mlookup_minsert_self]
        · rw [mlookup_minsert_ne st.secrets name k _ hk,
            mlookup_minsert_ne st.storage name k _ hk]
          exact h k
  · cases hmd : mlookup st.secrets name with
    | none =>
      simp only [Server.Get, hmd]
      exact h
    | some md =>
      by_cases hfr : now - md.lastAccessed > md.inactivityTTL
      · simp only [Server.Get, hmd, if_pos hfr]
        intro k
        by_cases hk : k = name
        · subst hk
          simp [mlookup_mremove_self]
        · rw [mlookup_mremove_ne st.secrets name k hk,
            mlookup_mremove_ne st.storage name k hk]
          exact h k
      · by_cases hax : md.absoluteExpiresAt.elim false (fun d => decide (now > d)) = true
        · simp only [Server.Get, hmd, if_neg hfr, hax, if_true]
          intro k
          by_cases hk : k = name
          · subst hk
            simp [mlookup_mremove_self]
          · rw [mlookup_mremove_ne st.secrets name k hk,
              mlookup_mremove_ne st.storage name k hk]
            exact h k
        · have hax' : md.absoluteExpiresAt.elim false (fun d => decide (now > d)) = false := by
            simpa using hax
          rw [serverGet_state_not_expired st name clientNonce clientHash now md hmd hfr hax']
          intro k
          by_cases hk : name = k
          · subst hk
            simp only [mlookup_minsert_self, Option.isSome_some, true_iff]
            exact (h name).mp (by simp [hmd])
          · rw [mlookup_minsert_ne st.secrets name k _ hk]
            exact h k
  · intro k
    have hsec : mlookup (st.secrets.filter (fun kv => !(expiredPred kv.2 now))) k
        = (mlookup st.secrets k).bind
            (fun v => if !(expiredPred v now) then some v else none) := by
      simpa using mlookup_filter (fun kv => !(expiredPred kv.2 now)) st.secrets hnd k
    have hsto : mlookup (st.storage.filter
        (fun kv => !(decide (kv.1 ∈ mkeys (st.secrets.filter (fun kv => expiredPred kv.2 now)))))) k
        = if !(decide (k ∈ mkeys (st.secrets.filter (fun kv => expiredPred kv.2 now))))
          then mlookup st.storage k else none :=
      mlookup_filter_key
        (fun x => !(decide (x ∈ mkeys (st.secrets.filter (fun kv => expiredPred kv.2 now)))))
        st.storage k
    have hremk : k ∈ mkeys (st.secrets.filter (fun kv => expiredPred kv.2 now))
        ↔ (mlookup (st.secrets.filter (fun kv => expiredPred kv.2 now)) k).isSome :=
      ⟨mem_keys_mlookup_isSome _ _, mlookup_isSome_of_mem_keys _ _⟩
    have hremlk : mlookup (st.secrets.filter (fun kv => expiredPred kv.2 now)) k
        = (mlookup st.secrets k).bind
            (fun v => if expiredPred v now then some v else none) := by
      simpa using mlookup_filter (fun kv => expiredPred kv.2 now) st.secrets hnd k
    simp only [Server.sweepOnce, hsec, hsto]
    cases hk : mlookup st.secrets k with
    | none =>
      have hk2 : mlookup st.storage k = none := by
        have := (h k).mpr
        cases hsk : mlookup st.storage k with
        | none => rfl
        | some p =>
          have := (h k).mpr (by simp [hsk])
          simp [hk] at this
      by_cases hm : k ∈ mkeys (st.secrets.filter (fun kv => expiredPred kv.2 now))
      · simp [hm, hk2]
      · simp [hm, hk2]
    | some md =>
      have hk2 : (mlookup st.storage k).isSome := (h k).mp (by simp [hk])
      by_cases hx : expiredPred md now
      · have hmem : k ∈ mkeys (st.secrets.filter (fun kv => expiredPred kv.2 now)) := by
          rw [hremk, hremlk, hk]
          simp [hx]
        simp [hk, hx, hmem]
      · have hmem : ¬ k ∈ mkeys (st.secrets.filter (fun kv => expiredPred kv.2 now)) := by
          rw [hremk, hremlk, hk]
          simp [hx]
        simp [hk, hx, hmem, hk2]

/-! ## C8 — sweeper empties the table and triggers shutdown -/

/-- C8: a sweeper pass removes every entry satisfying either expiration
predicate together with its backend payload, and a pass over a table in
which every entry is expired leaves both the metadata table and the
backend empty and initiates graceful shutdown in that same tick. -/
theorem c8_sweeper_all_expired (st : ServerState) (now : Int)
    (h : sameKeys st) (hgrpc : st.grpcRunning = true)
    (hallx : ∀ kv ∈ st.secrets, expiredPred kv.2 now = true) :
    (Server.sweepOnce st now).secrets = [] ∧
    (Server.sweepOnce st now).storage = [] ∧
    (Server.sweepOnce st now).shutdown = true := by
  have hsec : st.secrets.filter (fun kv => !(expiredPred kv.2 now)) = [] := by
    rw [List.filter_eq_nil_iff]
    intro kv hkv
    simp [hallx kv hkv]
  have hrem : st.secrets.filter (fun kv => expiredPred kv.2 now) = st.secrets := by
    rw [List.filter_eq_self]
    intro kv hkv
    simp [hallx kv hkv]
  have hsto : st.storage.filter
      (fun kv => !(decide (kv.1 ∈ mkeys (st.secrets.filter (fun kv => expiredPred kv.2 now))))) = [] := by
    rw [List.filter_eq_nil_iff]
    intro kv hkv
    have h1 : (mlookup st.storage kv.1).isSome :=
      mem_keys_mlookup_isSome st.storage kv.1 (List.mem_map_of_mem Prod.fst hkv)
    have h2 : (mlookup st.secrets kv.1).isSome := (h kv.1).mpr h1
    have h3 : kv.1 ∈ mkeys st.secrets := mlookup_isSome_of_mem_keys _ _ h2
    rw [hrem]
    simp [h3]
  refine ⟨?_, ?_, ?_⟩
  · simp only [Server.sweepOnce, hsec]
  · simp only [Server.sweepOnce, hsto]
  · simp [Server.sweepOnce, hsec, hgrpc]

/-! ## C3 — fallback key derivation -/

/-- C3 (counterexample): the claim says the PBKDF2 password input is the
byte concatenation `CN || CED || name` with `CED` the raw 32-byte SHA-256
digest of the client executable.  The code concatenates the 64-character
hex encoding of the digest instead, so already on the empty nonce, empty
executable and empty name the actual password differs from the claimed
one. -/
theorem c3_password_counterexample :
    deriveKeyPassword cDemo (getCurrentBinaryHash []) []
      ≠ deriveKeyPasswordSpec cDemo.nonce [] [] := by
  decide

/-- C3 (amended): the fallback `deriveKey(name)` is PBKDF2 with
HMAC-SHA256, 100000 iterations and 32-byte output, whose password input
is the byte concatenation `CN || hex(CED) || name` — where `hex(CED)` is
the 64-character lowercase hexadecimal encoding of the 32-byte SHA-256
digest of the client executable, not the raw digest — and whose salt is
SHA-256(name). -/
theorem c3_deriveKey_structure (c : Client) (exe name : Bytes) :
    Client.deriveKey c exe name =
      pbkdf2Key (c.nonce ++ (hexEncode (sha256 exe) ++ name)) (sha256 name) 100000 32 ∧
    (hexEncode (sha256 exe)).length = 64 ∧
    (∀ ch ∈ hexEncode (sha256 exe),
      (48 ≤ ch ∧ ch ≤ 57) ∨ (97 ≤ ch ∧ ch ≤ 102)) ∧
    (sha256 name).length = 32 ∧
    (Client.deriveKey c exe name).length = 32 := by
  refine ⟨rfl, ?_, ?_, sha256_length name, pbkdf2Key_length _ _ _ _⟩
  · rw [hexEncode_length, sha256_length]
  · exact hexEncode_chars (sha256 exe) (sha256_all_bytes exe)

/-! ## C5 — fallback file path -/

/-- C5 (counterexample): the claim says both digest components of the
fallback file name are the first sixteen hexadecimal characters of the
respective 32-byte digest.  The code formats the name component as
`%x` of the first sixteen digest BYTES — 32 hexadecimal characters — so
the actual path differs from the spec-shaped path already on a concrete
one-byte name. -/
theorem c5_path_counterexample :
    getFallbackFilePath [] [] [107] ≠ getFallbackFilePathSpec [] [] [107] := by
  decide

/-- C5 (amended): `getFallbackFilePath` returns
`<tmpDir>/burnafter-<CED16>-<H32>` where `CED16` is the first sixteen
hex characters of the executable digest (equivalently, the hex encoding
of its first eight bytes) but `H32` is the hex encoding of the FIRST
SIXTEEN BYTES of SHA-256(name): thirty-two hex characters after the
second hyphen, not sixteen. -/
theorem c5_path_structure (tmpDir exe name : Bytes) :
    getFallbackFilePath tmpDir exe name =
      tmpDir ++ (slash :: (burnafterDash ++ ((hexEncode (sha256 exe)).take 16 ++
        (hyphen :: hexEncode ((sha256 name).take 16))))) ∧
    ((getCurrentBinaryHash exe).take 16).length = 16 ∧
    (getCurrentBinaryHash exe).take 16 = hexEncode ((sha256 exe).take 8) ∧
    (hexEncode ((sha256 name).take 16)).length = 32 ∧
    (∀ ch ∈ hexEncode ((sha256 name).take 16),
      (48 ≤ ch ∧ ch ≤ 57) ∨ (97 ≤ ch ∧ ch ≤ 102)) := by
  refine ⟨rfl, ?_, ?_, ?_, ?_⟩
  · rw [List.length_take, getCurrentBinaryHash, hexEncode_length, sha256_length]
    omega
  · rw [getCurrentBinaryHash, show (16 : Nat) = 2 * 8 from rfl, hexEncode_take]
  · rw [hexEncode_length, List.length_take, sha256_length]
    omega
  · exact hexEncode_chars _ (fun b hb => sha256_all_bytes name b (List.take_subset _ _ hb))

/-! ## C4 — absolute-deadline semantics -/

/-- C4 (counterexample): the claim says that in fallback mode, as in
daemon mode, a Store with `absolute_expiration_seconds = N > 0` yields a
deadline `N` seconds after the Store call.  In fallback mode the code
instead uses `time.Unix(N, 0)` — the value `N` itself as a Unix
timestamp: storing at instant 1000 with N = 2 produces expiry 2, not
1002. -/
theorem c4_fallback_counterexample :
    storeFallbackExpiry cDemo 1000 ⟨3600, 2⟩ = 2 ∧
    storeFallbackExpiry cDemo 1000 ⟨3600, 2⟩ ≠ 1000 + 2 := by
  constructor
  · decide
  · decide

/-- C4 (amended): in daemon mode a Store with
`absolute_expiration_seconds = N > 0` sets the absolute deadline to the
instant `now + N`, and a later Get whose inactivity window is still open
but whose instant lies past `now + N` reports expired-absolute; in
fallback mode, however, the client uses `N` itself as the absolute
expiry timestamp (seconds since the Unix epoch), so the
"N seconds after Store" reading holds only for the daemon. -/
theorem c4_absolute_deadline (st : ServerState)
    (name secret clientNonce clientHash salt nonce : Bytes)
    (ttlSeconds absSeconds now now₂ : Int)
    (hsz : ¬ ((secret.length : Int) > st.maxSecretSize))
    (hlim : (mlookup st.secrets name).isSome = true ∨ st.secrets.length < st.maxSecrets)
    (habs : 0 < absSeconds)
    (hwin : now₂ - now ≤ (if ttlSeconds = 0 then st.defaultTTL else ttlSeconds))
    (hlate : now + absSeconds < now₂) :
    (Server.Store st name secret ttlSeconds absSeconds clientNonce clientHash salt nonce now).1
      = StoreResult.success ∧
    (mlookup (Server.Store st name secret ttlSeconds absSeconds clientNonce clientHash salt nonce now).2.secrets name).elim
      False (fun md => md.absoluteExpiresAt = some (now + absSeconds)) ∧
    (Server.Get (Server.Store st name secret ttlSeconds absSeconds clientNonce clientHash salt nonce now).2
      name clientNonce clientHash now₂).1 = GetResult.expiredAbsolute ∧
    (∀ (c : Client) (nowF : Int) (opts : StoreOpts),
      0 < opts.absoluteExpirationSeconds →
      storeFallbackExpiry c nowF opts = opts.absoluteExpirationSeconds) := by
  have hcond : ¬ (!(mlookup st.secrets name).isSome
      && decide (st.secrets.length ≥ st.maxSecrets)) = true := by
    rcases hlim with h | h
    · simp [h]
    · simp [Nat.not_le.mpr h]
  have hstore : Server.Store st name secret ttlSeconds absSeconds clientNonce clientHash salt nonce now
      = (StoreResult.success,
        { st with
            storage := minsert st.storage name
              ⟨encryptServer secret (deriveKeyServer clientHash clientNonce st.sessionID name salt) nonce,
               salt, clientHash⟩,
            secrets := minsert st.secrets name
              ⟨name, if ttlSeconds = 0 then st.defaultTTL else ttlSeconds,
                if absSeconds > 0 then some (now + absSeconds) else none, now⟩ }) := by
    simp only [Server.Store, if_neg hsz, if_neg hcond]
  refine ⟨by rw [hstore], ?_, ?_, ?_⟩
  · rw [hstore]
    simp only [mlookup_minsert_self, Option.elim_some, if_pos habs]
  · rw [hstore]
    simp only [Server.Get, mlookup_minsert_self]
    rw [if_neg (by simpa using hwin)]
    rw [if_pos (by simp only [if_pos habs, Option.elim_some, decide_eq_true_eq]; exact hlate)]
  · intro c nowF opts h
    simp [storeFallbackExpiry, h]

/-! ## C6 — secret-count limit -/

/-- C6: a daemon Store of a new name fails with the resource-limit error
and mutates nothing when the table already holds `MaxSecrets` names,
while a Store of an existing name never trips the limit, succeeds, and
leaves the metadata-table cardinality unchanged. -/
theorem c6_secret_limit (st : ServerState)
    (name secret clientNonce clientHash salt nonce : Bytes)
    (ttlSeconds absSeconds now : Int)
    (hsz : ¬ ((secret.length : Int) > st.maxSecretSize)) :
    (mlookup st.secrets name = none → st.secrets.length = st.maxSecrets →
      Server.Store st name secret ttlSeconds absSeconds clientNonce clientHash salt nonce now
        = (StoreResult.limitExceeded, st)) ∧
    (∀ md₀, mlookup st.secrets name = some md₀ →
      (Server.Store st name secret ttlSeconds absSeconds clientNonce clientHash salt nonce now).1
        = StoreResult.success ∧
      (Server.Store st name secret ttlSeconds absSeconds clientNonce clientHash salt nonce now).2.secrets.length
        = st.secrets.length) := by
  constructor
  · intro habsent hfull
    have hcond : (!(mlookup st.secrets name).isSome
        && decide (st.secrets.length ≥ st.maxSecrets)) = true := by
      simp [habsent, hfull]
    simp only [Server.Store, if_neg hsz, if_pos hcond]
  · intro md₀ hpresent
    have hcond : ¬ (!(mlookup st.secrets name).isSome
        && decide (st.secrets.length ≥ st.maxSecrets)) = true := by
      simp [hpresent]
    constructor
    · simp only [Server.Store, if_neg hsz, if_neg hcond]
    · simp only [Server.Store, if_neg hsz, if_neg hcond]
      exact length_minsert_present st.secrets name _ (by simp [hpresent])

/-! ## C1 — fallback-mode round trip -/

/-- C1: with the client in fallback mode, for every name and every
secret no larger than `MaxSecretSize`, a Store whose computed expiry lies
in the future (and within the int64 range the on-disk format can carry)
succeeds, and an immediate Get returns exactly the stored bytes. -/
theorem c1_fallback_round_trip (c : Client) (exe tmpDir : Bytes) (fs : FS)
    (name secret : Bytes) (opts : StoreOpts) (now : Int) (nonce : Bytes)
    (hfb : c.useFallback = true)
    (hsz : (secret.length : Int) ≤ c.maxSecretSize)
    (hn : nonce.length = 12)
    (hnow : 0 ≤ now)
    (hfut : now < storeFallbackExpiry c now opts)
    (hmax : storeFallbackExpiry c now opts ≤ (maxInt64Nat : Int)) :
    ∃ fs₂, Client.StoreFB c exe tmpDir fs name secret opts now nonce = Except.ok fs₂ ∧
      (Client.GetFB c exe tmpDir fs₂ name now).1 = Except.ok secret := by
  have he0 : ¬ storeFallbackExpiry c now opts < 0 := by omega
  set e := storeFallbackExpiry c now opts with he
  set key := Client.deriveKey c exe name with hkey
  set ct := gcmSeal key nonce secret with hct
  set path := getFallbackFilePath tmpDir exe name with hpath
  set buf := serializeFallback nonce e ct with hbuf
  set fs₂ := cleanupExpiredFallbackFiles exe tmpDir (fsWrite fs path buf) now with hfs₂
  have hstore : Client.StoreFB c exe tmpDir fs name secret opts now nonce
      = Except.ok fs₂ := by
    simp only [Client.StoreFB, hfb, if_true, encryptSecret, if_neg he0, hfs₂, hbuf, hct,
      hkey, hpath, he]
  have hbeN : beUint64 ((buf.drop (1 + gcmNonceSize)).take 8) = e.toNat := by
    have hsl : ((serializeFallback nonce e ct).drop 13).take 8 = putUint64BE e.toNat :=
      serializeFallback_expiry nonce e ct hn
    rw [hbuf, show (1 : Nat) + gcmNonceSize = 13 from rfl, hsl]
    apply beUint64_putUint64BE
    have : maxInt64Nat < 2 ^ 64 := by norm_num [maxInt64Nat]
    omega
  have hkeep : (fun kv : Bytes × Bytes =>
      !(cleanupShouldDelete (fallbackFilePfx tmpDir exe) now kv.1 kv.2)) (path, buf)
      = true := by
    have hlt : ¬ ((beUint64 ((buf.drop (1 + gcmNonceSize)).take 8) : Int) < now) := by
      rw [hbeN, Int.toNat_of_nonneg (by omega)]
      omega
    simp only [cleanupShouldDelete, Bool.not_eq_true']
    simp [hlt]
  have hread₂ : fsRead fs₂ path = some buf := by
    rw [hfs₂]
    simp only [cleanupExpiredFallbackFiles, fsWrite, List.filter_cons, hkeep, if_true]
    simp [fsRead, mlookup]
  refine ⟨fs₂, hstore, ?_⟩
  have hdec : decryptSecret c exe tmpDir fs₂ name now = (Except.ok secret, fs₂) := by
    apply decryptSecret_serialized c exe tmpDir fs₂ name secret nonce e now hn
      (by omega) hmax (by omega)
    rw [← hpath, hread₂, hbuf, hct, hkey]
  simp only [Client.GetFB, hfb, if_true, hdec]

/-! ## C9 — fallback read-path errors -/

/-- C9: the fallback read path returns not-found when no file exists at
the derived path; an unsupported-version failure when a (parseable) file
does not carry version byte 1; an invalid-expiry failure when the stored
expiry exceeds the maximum signed 64-bit integer; deletes the file and
reports expired in the same call when now lies past the expiry; and
reports a crypto-error on any AES-GCM authentication failure. -/
theorem c9_fallback_read_errors (c : Client) (exe tmpDir : Bytes) (fs : FS)
    (name : Bytes) (now : Int) :
    (fsRead fs (getFallbackFilePath tmpDir exe name) = none →
      decryptSecret c exe tmpDir fs name now = (Except.error FBError.notFound, fs)) ∧
    (∀ data, fsRead fs (getFallbackFilePath tmpDir exe name) = some data →
      1 + gcmNonceSize + 8 ≤ data.length →
      data.headI ≠ fallbackFileVersion →
      decryptSecret c exe tmpDir fs name now
        = (Except.error (FBError.unsupportedVersion data.headI), fs)) ∧
    (∀ data, fsRead fs (getFallbackFilePath tmpDir exe name) = some data →
      1 + gcmNonceSize + 8 ≤ data.length →
      data.headI = fallbackFileVersion →
      maxInt64Nat < beUint64 ((data.drop (1 + gcmNonceSize)).take 8) →
      decryptSecret c exe tmpDir fs name now = (Except.error FBError.invalidExpiry, fs)) ∧
    (∀ data, fsRead fs (getFallbackFilePath tmpDir exe name) = some data →
      1 + gcmNonceSize + 8 ≤ data.length →
      data.headI = fallbackFileVersion →
      beUint64 ((data.drop (1 + gcmNonceSize)).take 8) ≤ maxInt64Nat →
      ((beUint64 ((data.drop (1 + gcmNonceSize)).take 8) : Nat) : Int) < now →
      decryptSecret c exe tmpDir fs name now
        = (Except.error FBError.expired, fsRemove fs (getFallbackFilePath tmpDir exe name)) ∧
      fsRead (fsRemove fs (getFallbackFilePath tmpDir exe name))
        (getFallbackFilePath tmpDir exe name) = none) ∧
    (∀ data, fsRead fs (getFallbackFilePath tmpDir exe name) = some data →
      1 + gcmNonceSize + 8 ≤ data.length →
      data.headI = fallbackFileVersion →
      beUint64 ((data.drop (1 + gcmNonceSize)).take 8) ≤ maxInt64Nat →
      ¬ ((beUint64 ((data.drop (1 + gcmNonceSize)).take 8) : Nat) : Int) < now →
      gcmOpen (Client.deriveKey c exe name) ((data.drop 1).take gcmNonceSize)
        (data.drop (1 + gcmNonceSize + 8)) = none →
      decryptSecret c exe tmpDir fs name now
        = (Except.error FBError.cryptoError, fs)) := by
  refine ⟨?_, ?_, ?_, ?_, ?_⟩
  · intro hread
    simp only [decryptSecret, hread]
  · intro data hread hlen hv
    have h1 : ¬ data.length < 1 + gcmNonceSize + 8 := by omega
    simp only [decryptSecret, hread]
    rw [if_neg h1, if_pos hv]
  · intro data hread hlen hv hbig
    have h1 : ¬ data.length < 1 + gcmNonceSize + 8 := by omega
    have h2 : ¬ data.headI ≠ fallbackFileVersion := by simp [hv]
    simp only [decryptSecret, hread]
    rw [if_neg h1, if_neg h2, if_pos hbig]
  · intro data hread hlen hv hle hpast
    have h1 : ¬ data.length < 1 + gcmNonceSize + 8 := by omega
    have h2 : ¬ data.headI ≠ fallbackFileVersion := by simp [hv]
    have h3 : ¬ beUint64 ((data.drop (1 + gcmNonceSize)).take 8) > maxInt64Nat := by omega
    constructor
    · simp only [decryptSecret, hread]
      rw [if_neg h1, if_neg h2, if_neg h3, if_pos hpast]
    · exact mlookup_mremove_self fs _
  · intro data hread hlen hv hle hfresh hopen
    have h1 : ¬ data.length < 1 + gcmNonceSize + 8 := by omega
    have h2 : ¬ data.headI ≠ fallbackFileVersion := by simp [hv]
    have h3 : ¬ beUint64 ((data.drop (1 + gcmNonceSize)).take 8) > maxInt64Nat := by omega
    simp only [decryptSecret, hread]
    rw [if_neg h1, if_neg h2, if_neg h3, if_neg hfresh]
    simp only [hopen]

/-! ## C10 — Get refreshes the inactivity window before authorization -/

/-- C10: in the daemon Get handler `last_accessed` is set to the current
time before the stored executable digest is compared with the caller's
and before decryption, so a Get that fails as unauthorized (hash
mismatch) or as a crypto-error still refreshes the secret's inactivity
window. -/
theorem c10_refresh_before_auth (st : ServerState)
    (name clientNonce clientHash : Bytes) (now : Int) (md : Metadata)
    (hmd : mlookup st.secrets name = some md)
    (hfresh : ¬ now - md.lastAccessed > md.inactivityTTL)
    (habs : md.absoluteExpiresAt.elim false (fun d => decide (now > d)) = false) :
    mlookup (Server.Get st name clientNonce clientHash now).2.secrets name
      = some { md with lastAccessed := now } ∧
    (∀ p, mlookup st.storage name = some p → p.clientBinaryHash ≠ clientHash →
      (Server.Get st name clientNonce clientHash now).1 = GetResult.unauthorized) ∧
    (∀ p, mlookup st.storage name = some p → p.clientBinaryHash = clientHash →
      decryptServer p.encryptedData
        (deriveKeyServer clientHash clientNonce st.sessionID name p.salt) = none →
      (Server.Get st name clientNonce clientHash now).1 = GetResult.cryptoError) := by
  refine ⟨?_, ?_, ?_⟩
  · simp only [Server.Get, hmd, if_neg hfresh, habs, Bool.false_eq_true, if_false]
    cases hp : mlookup st.storage name with
    | none => simp [mlookup_minsert_self]
    | some p =>
      dsimp only
      by_cases hh : p.clientBinaryHash ≠ clientHash
      · rw [if_pos hh]
        simp [mlookup_minsert_self]
      · rw [if_neg hh]
        cases hdec : decryptServer p.encryptedData
            (deriveKeyServer clientHash clientNonce st.sessionID name p.salt) with
        | none => simp [hdec, mlookup_minsert_self]
        | some pt => simp [hdec, mlookup_minsert_self]
  · intro p hp hne
    simp only [Server.Get, hmd, if_neg hfresh, habs, Bool.false_eq_true, if_false, hp,
      if_pos hne]
  · intro p hp heq hdec
    simp only [Server.Get, hmd, if_neg hfresh, habs, Bool.false_eq_true, if_false, hp, hdec]
    rw [if_neg (by simp [heq])]

/-! ## Concrete instantiations (witnesses) -/

/-- A 12-byte GCM nonce. -/
def nonceDemo : Bytes := [0, 1, 2, 3, 4, 5, 6, 7, 8, 9, 10, 11]

/-- A metadata entry written at instant 0 with a 300-second TTL. -/
def mdDemo : Metadata :=
  { name := [107], inactivityTTL := 300, absoluteExpiresAt := none, lastAccessed := 0 }

/-- The payload the daemon would store for secret `[118]` under name
`[107]` for the client with digest `[104]` and nonce `[110]`. -/
def pDemo : Payload :=
  { encryptedData := encryptServer [118]
      (deriveKeyServer [104] [110] [115, 105, 100] [107] [3, 4]) nonceDemo,
    salt := [3, 4], clientBinaryHash := [104] }

/-- A daemon state holding exactly the secret `[107]`. -/
def stDemo2 : ServerState :=
  { stDemo with secrets := [([107], mdDemo)], storage := [([107], pDemo)] }

/-- A daemon state at its secret-count limit. -/
def stFull : ServerState :=
  { stDemo with
      maxSecrets := 1
      secrets := [([107], mdDemo)]
      storage := [([107], pDemo)] }

/-- A metadata entry whose inactivity window is long past at instant
100. -/
def mdExpired : Metadata :=
  { name := [107], inactivityTTL := 1, absoluteExpiresAt := none, lastAccessed := 0 }

/-- A daemon state whose only entry is expired at instant 100. -/
def stExpired : ServerState :=
  { stDemo with secrets := [([107], mdExpired)], storage := [([107], pDemo)] }

/-- A fallback file whose version byte is 2. -/
def dataBadVersion : Bytes := 2 :: List.replicate 20 0

/-- A filesystem holding that file at the derived fallback path. -/
def fsBadVersion : FS := [(getFallbackFilePath [116] [1] [107], dataBadVersion)]

/-- Witness for C1: a concrete fallback Store at instant 10 with
absolute expiry 50 followed by an immediate Get returns the stored
bytes. -/
theorem c1_witness :
    ∃ fs₂, Client.StoreFB cDemo [1] [116] [] [107] [104, 105] ⟨0, 50⟩ 10 nonceDemo
        = Except.ok fs₂ ∧
      (Client.GetFB cDemo [1] [116] fs₂ [107] 10).1 = Except.ok [104, 105] :=
  c1_fallback_round_trip cDemo [1] [116] [] [107] [104, 105] ⟨0, 50⟩ 10 nonceDemo
    (by decide) (by decide) (by decide) (by decide) (by decide) (by decide)

/-- Witness for C2: on the concrete one-secret daemon state, a Get at
instant 10 (inside the 300-second window, no deadline) returns the
stored plaintext. -/
theorem c2_witness :
    (Server.Get stDemo2 [107] [110] [104] 10).1 = GetResult.success [118] :=
  ((c2_daemon_expiration_law stDemo2 [107] [110] [104] [118] nonceDemo 10 mdDemo pDemo
      (by decide) (by decide) rfl (by decide) rfl).1).mpr
    ⟨by decide, fun d hd => Option.noConfusion hd⟩

/-- Witness for C4: storing with absolute_expiration_seconds = 2 at
instant 1000 and querying at 1003 yields expired-absolute. -/
theorem c4_witness :
    (Server.Store stDemo [107] [118] 3600 2 [110] [104] [3, 4] nonceDemo 1000).1
      = StoreResult.success ∧
    (Server.Get (Server.Store stDemo [107] [118] 3600 2 [110] [104] [3, 4] nonceDemo 1000).2
      [107] [110] [104] 1003).1 = GetResult.expiredAbsolute :=
  ⟨(c4_absolute_deadline stDemo [107] [118] [110] [104] [3, 4] nonceDemo 3600 2 1000 1003
      (by decide) (Or.inr (by decide)) (by decide) (by decide) (by decide)).1,
   (c4_absolute_deadline stDemo [107] [118] [110] [104] [3, 4] nonceDemo 3600 2 1000 1003
      (by decide) (Or.inr (by decide)) (by decide) (by decide) (by decide)).2.2.1⟩

/-- Witness for C6: with the table at its limit, storing a new name is
refused without mutation while overwriting the existing name succeeds
and keeps the cardinality. -/
theorem c6_witness :
    Server.Store stFull [108] [118] 300 0 [110] [104] [3, 4] nonceDemo 50
      = (StoreResult.limitExceeded, stFull) ∧
    ((Server.Store stFull [107] [118] 300 0 [110] [104] [3, 4] nonceDemo 50).1
      = StoreResult.success ∧
     (Server.Store stFull [107] [118] 300 0 [110] [104] [3, 4] nonceDemo 50).2.secrets.length
      = stFull.secrets.length) :=
  ⟨(c6_secret_limit stFull [108] [118] [110] [104] [3, 4] nonceDemo 300 0 50
      (by decide)).1 (by decide) (by decide),
   (c6_secret_limit stFull [107] [118] [110] [104] [3, 4] nonceDemo 300 0 50
      (by decide)).2 mdDemo (by decide)⟩

/-- Witness for C7: the pairing invariant survives a concrete Store, Get
and sweep on the one-secret state. -/
theorem c7_witness :
    sameKeys (Server.Store stDemo2 [107] [118] 300 0 [110] [104] [3, 4] nonceDemo 50).2 ∧
    sameKeys (Server.Get stDemo2 [107] [110] [104] 50).2 ∧
    sameKeys (Server.sweepOnce stDemo2 50) :=
  c7_metadata_payload_pairing stDemo2 [107] [118] [110] [104] [3, 4] nonceDemo 300 0 50
    (by intro k; by_cases hk : [107] = k <;> simp [stDemo2, stDemo, mlookup, hk])
    (by simp [NodupKeys, mkeys, stDemo2, stDemo])

/-- Witness for C8: sweeping the state whose single entry is expired
leaves both tables empty and initiates shutdown. -/
theorem c8_witness :
    (Server.sweepOnce stExpired 100).secrets = [] ∧
    (Server.sweepOnce stExpired 100).storage = [] ∧
    (Server.sweepOnce stExpired 100).shutdown = true :=
  c8_sweeper_all_expired stExpired 100
    (by intro k; by_cases hk : [107] = k <;> simp [stExpired, stDemo, mlookup, hk])
    (by decide) (by decide)

/-- Witness for C9: a missing file yields not-found, and a parseable
file with version byte 2 yields the unsupported-version failure. -/
theorem c9_witness :
    decryptSecret cDemo [1] [116] [] [107] 5 = (Except.error FBError.notFound, []) ∧
    decryptSecret cDemo [1] [116] fsBadVersion [107] 5
      = (Except.error (FBError.unsupportedVersion dataBadVersion.headI), fsBadVersion) :=
  ⟨(c9_fallback_read_errors cDemo [1] [116] [] [107] 5).1 (by decide),
   (c9_fallback_read_errors cDemo [1] [116] fsBadVersion [107] 5).2.1 dataBadVersion
     (by decide) (by decide) (by decide)⟩

/-- Witness for C10: on the concrete state, a Get by a caller with
non-matching digest `[105]` is unauthorized yet refreshes
`lastAccessed` to the call's instant. -/
theorem c10_witness :
    mlookup (Server.Get stDemo2 [107] [110] [105] 10).2.secrets [107]
      = some { mdDemo with lastAccessed := 10 } ∧
    (Server.Get stDemo2 [107] [110] [105] 10).1 = GetResult.unauthorized :=
  ⟨(c10_refresh_before_auth stDemo2 [107] [110] [105] 10 mdDemo
      (by decide) (by decide) (by decide)).1,
   (c10_refresh_before_auth stDemo2 [107] [110] [105] 10 mdDemo
      (by decide) (by decide) (by decide)).2.1 pDemo (by decide) (by decide)⟩

end BurnAfter
